import Mathlib

/-!
Shallow embedding of libfoxenmem: the layout-planning helpers from
`foxen/mem.h` (`fx_mem_init_size`, `fx_mem_update_size`, `fx_mem_align`) and
the sequential semantics of the slot-pool allocator from `foxen/mem.c`
(`fx_mem_pool_alloc`, `fx_mem_pool_free`).

Machine integers: `uint32_t` values are modelled as `Nat` with an explicit
`% 4294967296` wherever the C arithmetic can wrap; `uintptr_t` addresses
are modelled as `Nat` (the mask `& ~(FX_ALIGN - 1)` becomes clearing the
four low bits, `(p >>> 4) <<< 4`, which is the same operation on any word
width that the address fits in).

Concurrency: the claims settled here concern the sequential (single-caller)
model, in which every compare-and-swap succeeds against the value just
loaded, so the CAS retry loops of the C code reduce to the straight-line
state updates below.
-/

/-- Accumulated layout state after `fx_mem_init_size` (mem.h line 72): the
function writes `FX_ALIGN = 16` to `*size` and returns `true`. -/
def fx_mem_init_size : Bool × Nat := (true, 16)

/-- `fx_mem_update_size` (mem.h lines 88-96): compute
`(*size + n_bytes + FX_ALIGN - 1) & ~(FX_ALIGN - 1)` in 32-bit arithmetic
(`4294967280` is `~15` as a `uint32_t`), fail returning the old size when
the computed value is below the old size, otherwise store it. -/
def fx_mem_update_size (size n_bytes : Nat) : Bool × Nat :=
  let new_size := ((size + n_bytes + 16 - 1) % 4294967296) &&& 4294967280
  if new_size < size then (false, size) else (true, new_size)

/-- `FX_ALIGN_ADDR` (mem.h lines 58-60) on the `Nat` model of `uintptr_t`:
`(p + FX_ALIGN - 1) & ~(FX_ALIGN - 1)`, i.e. round `p` up and clear the four
low bits. -/
def fx_align_addr (p : Nat) : Nat := ((p + 16 - 1) >>> 4) <<< 4

/-- `fx_mem_align` (mem.h lines 108-112): return the aligned address for the
next sub-structure and the advanced cursor. -/
def fx_mem_align (mem size : Nat) : Nat × Nat :=
  let res := fx_align_addr mem
  (res, res + size)

/-- Chained `fx_mem_update_size` calls on a list of sub-structure sizes,
starting from accumulator `sz`, with C-style short-circuit `&&` (the chain
stops at the first failing call, as in the README usage pattern). -/
def totalSizeAux : Nat → List Nat → Bool × Nat
  | sz, [] => (true, sz)
  | sz, n :: rest =>
    match fx_mem_update_size sz n with
    | (true, sz2) => totalSizeAux sz2 rest
    | (false, sz2) => (false, sz2)

/-- Chained `fx_mem_align` calls: the list of sub-structure addresses carved
from cursor `cur` for the given ordered list of sizes. -/
def fx_carve : Nat → List Nat → List Nat
  | _, [] => []
  | cur, n :: rest =>
    match fx_mem_align cur n with
    | (a, cur2) => a :: fx_carve cur2 rest

/-- Mathematical (unbounded) round-up of `x` to a multiple of 16, used only
to state what the 32-bit computation inside `fx_mem_update_size` would be
without wrap-around. -/
def specRoundUp16 (x : Nat) : Nat := (x + 16 - 1) / 16 * 16

/-- State of the slot pool: the bitmap words (`allocated_ptr[]`), the search
hint (`*free_idx_ptr`) and the allocation counter (`*n_allocated_ptr`). -/
structure PoolState where
  allocated : List Nat
  free_idx : Nat
  n_allocated : Nat
deriving DecidableEq

/-- Bit `i` of the bitmap: bit `i % 32` of word `i / 32`, as addressed by the
C code via `allocated_ptr[idx / FX_BMEW]` and `1U << (idx % FX_BMEW)`. -/
def bitGet (A : List Nat) (i : Nat) : Bool :=
  (A.getD (i / 32) 0).testBit (i % 32)

/-- The outer `while (true)` loop of `fx_mem_pool_alloc` (mem.c lines
29-90) in the sequential model, iterated at most `fuel` times: advance the
hint to `(idx + 1) % n_available` (32-bit addition), return the sentinel
`n_available` when `n_allocated >= n_available`, otherwise test bit
`idx % 32` of word `idx / 32`; when clear, set it and bump the counter,
when set, retry at the advanced hint.  `none` models not terminating within
`fuel` iterations. -/
def allocLoop (A : List Nat) (C : Nat) : Nat → Nat → Nat → Option (Nat × PoolState)
  | _, _, 0 => none
  | free, n, fuel + 1 =>
    let free2 := ((free + 1) % 4294967296) % C
    if C ≤ n then
      some (C, ⟨A, free2, n⟩)
    else
      let mask := 1 <<< (free % 32)
      let word := A.getD (free / 32) 0
      if word &&& mask = 0 then
        some (free, ⟨A.set (free / 32) (word ||| mask), free2, (n + 1) % 4294967296⟩)
      else
        allocLoop A C free2 n fuel

/-- Sequential model of `fx_mem_pool_alloc`, with `n_available` iterations
of fuel for the outer loop (theorem `c8_termination` proves this bound is
enough on well-formed states). -/
def fx_mem_pool_alloc (C : Nat) (s : PoolState) : Option (Nat × PoolState) :=
  allocLoop s.allocated C s.free_idx s.n_allocated C

/-- Sequential model of `fx_mem_pool_free` (mem.c lines 94-133): clear bit
`idx % 32` of word `idx / 32` (`4294967295 ^^^ m` is `~m` as a `uint32_t`),
decrement the counter with 32-bit wrap-around, and lower the hint to `idx`
when `idx <= free_idx` (the loop condition on line 128). -/
def fx_mem_pool_free (idx : Nat) (s : PoolState) : PoolState :=
  let word := s.allocated.getD (idx / 32) 0
  let mask := 4294967295 ^^^ (1 <<< (idx % 32))
  { allocated := s.allocated.set (idx / 32) (word &&& mask)
    free_idx := if idx ≤ s.free_idx then idx else s.free_idx
    n_allocated := (s.n_allocated + 4294967295) % 4294967296 }

/-- Modulo instrumented with the C well-definedness side condition: `a % b`
is undefined behaviour when `b = 0`. -/
def chkMod (a b : Nat) : Option Nat := if b = 0 then none else some (a % b)

/-- Left shift instrumented with the C side condition that the shift amount
must be below the 32-bit word width. -/
def chkShl (a k : Nat) : Option Nat := if k < 32 then some (a <<< k) else none

/-- `allocLoop` with every modulo by a run-time value and every shift
instrumented: the outer `none` means a modulo by zero or an oversized shift
was reached (C undefined behaviour), `some none` means the fuel ran out,
and `some (some r)` is a result. -/
def allocLoopChk (A : List Nat) (C : Nat) : Nat → Nat → Nat → Option (Option (Nat × PoolState))
  | _, _, 0 => some none
  | free, n, fuel + 1 =>
    match chkMod ((free + 1) % 4294967296) C with
    | none => none
    | some free2 =>
      if C ≤ n then
        some (some (C, ⟨A, free2, n⟩))
      else
        match chkShl 1 (free % 32) with
        | none => none
        | some mask =>
          let word := A.getD (free / 32) 0
          if word &&& mask = 0 then
            some (some (free, ⟨A.set (free / 32) (word ||| mask), free2, (n + 1) % 4294967296⟩))
          else
            allocLoopChk A C free2 n fuel

/-- The zero-initialized pool of capacity `C`: all bitmap words zero
(`ceil(C / 32)` of them), hint zero, counter zero. -/
def emptyPool (C : Nat) : PoolState :=
  ⟨List.replicate ((C + 31) / 32) 0, 0, 0⟩

/-- Bitmap words of a capacity-`C` pool in which exactly the slots
`0, ..., k-1` are allocated: word `w` has its low `min 32 (k - 32*w)` bits
set. -/
def mkWords (C k : Nat) : List Nat :=
  (List.range ((C + 31) / 32)).map (fun w => 2 ^ (min 32 (k - 32 * w)) - 1)

/-- Pool state reached from the empty capacity-`C` pool by `k` sequential
successful claims: slots `0, ..., k-1` allocated, hint `k % C`, counter
`k`. -/
def mkSeqState (C k : Nat) : PoolState :=
  ⟨mkWords C k, k % C, k⟩

/-- Iterate `fx_mem_pool_alloc` `m` times, collecting the returned values in
order. -/
def allocN (C : Nat) : Nat → PoolState → Option (List Nat × PoolState)
  | 0, s => some ([], s)
  | m + 1, s =>
    match fx_mem_pool_alloc C s with
    | none => none
    | some (r, s2) =>
      match allocN C m s2 with
      | none => none
      | some (rs, s3) => some (r :: rs, s3)

/-- An operation on the pool: a claim (`fx_mem_pool_alloc`) or a release
(`fx_mem_pool_free idx`). -/
inductive PoolOp where
  | claim : PoolOp
  | release : Nat → PoolOp
deriving DecidableEq

/-- Run a sequence of pool operations sequentially.  `held` is the list of
indices returned by claims and not yet released, `nC` counts successful
claims and `nR` releases.  A release is well-formed only when its index is
a distinct prior unreleased claim (`i ∈ held`); otherwise the whole run is
rejected (`none`), as is a claim whose loop does not terminate in fuel. -/
def runOps (C : Nat) : List PoolOp → List Nat → PoolState → Nat → Nat →
    Option (List Nat × PoolState × Nat × Nat)
  | [], held, s, nC, nR => some (held, s, nC, nR)
  | .claim :: rest, held, s, nC, nR =>
    match fx_mem_pool_alloc C s with
    | none => none
    | some (r, s2) =>
      if r = C then runOps C rest held s2 nC nR
      else runOps C rest (r :: held) s2 (nC + 1) nR
  | .release i :: rest, held, s, nC, nR =>
    if i ∈ held then runOps C rest (held.erase i) (fx_mem_pool_free i s) nC (nR + 1)
    else none

/-- Number of set bits in the bitmap: each word is below `2 ^ 32`, so every
set bit of the word list is `bitGet A i` for some `i < 32 * A.length`. -/
def bitmapCount (A : List Nat) : Nat :=
  ((Finset.range (32 * A.length)).filter (fun i => bitGet A i = true)).card

/-- Structural well-formedness of a pool state of capacity `C`: the bitmap
has `ceil(C / 32)` words, each a 32-bit value, the hint is a valid slot
index, no bit at or beyond the capacity is set, and the counter equals the
number of allocated slots. -/
def PoolWF (C : Nat) (s : PoolState) : Prop :=
  s.allocated.length = (C + 31) / 32 ∧
  (∀ w ∈ s.allocated, w < 4294967296) ∧
  s.free_idx < C ∧
  (∀ i, C ≤ i → bitGet s.allocated i = false) ∧
  s.n_allocated = ((Finset.range C).filter (fun i => bitGet s.allocated i = true)).card

/-- Invariant tying a pool state to the list `held` of currently claimed
indices: structural well-formedness plus `held` being duplicate-free, in
range, in bijection with the set bits, and counted by `n_allocated`. -/
def PoolInv (C : Nat) (held : List Nat) (s : PoolState) : Prop :=
  s.allocated.length = (C + 31) / 32 ∧
  (∀ w ∈ s.allocated, w < 4294967296) ∧
  s.free_idx < C ∧
  held.Nodup ∧
  (∀ i ∈ held, i < C) ∧
  (∀ i, bitGet s.allocated i = true ↔ i ∈ held) ∧
  s.n_allocated = held.length

/-! Bridge lemmas between the C bit manipulations and `Nat.testBit`. -/

/-- Setting one bit of a 32-bit word keeps it a 32-bit word. -/
lemma lor_two_pow_bound (w k : Nat) (hw : w < 4294967296) (hk : k < 32) :
    w ||| (1 <<< k) < 4294967296 := by
  have h1 : (1 : Nat) <<< k = 2 ^ k := Nat.one_shiftLeft k
  have h2 : (2 : Nat) ^ k < 2 ^ 32 := Nat.pow_lt_pow_right (by omega) hk
  have h3 : (4294967296 : Nat) = 2 ^ 32 := by norm_num
  rw [h1, h3]
  exact Nat.bitwise_lt (by omega) h2

/-- The C test `!(allocated & mask)` with `mask = 1U << k` is the test that
bit `k` of the word is clear. -/
lemma land_shift_zero_iff (w k : Nat) :
    (w &&& (1 <<< k) = 0) ↔ w.testBit k = false := by
  rw [Nat.one_shiftLeft, Nat.and_two_pow]
  cases h : w.testBit k <;> simp [h]

/-- Setting the lowest clear bit of a low-ones word extends the run of ones. -/
lemma low_or_pow (m : Nat) : (2 ^ m - 1) ||| 2 ^ m = 2 ^ (m + 1) - 1 := by
  apply Nat.eq_of_testBit_eq
  intro i
  rw [Nat.testBit_lor, Nat.testBit_two_pow_sub_one, Nat.testBit_two_pow_sub_one,
    Nat.testBit_two_pow]
  rcases Nat.lt_trichotomy i m with h | h | h
  · have h1 : i < m + 1 := by omega
    have h2 : ¬ m = i := by omega
    simp [h, h1, h2]
  · simp [h]
  · have h1 : ¬ i < m := by omega
    have h2 : ¬ i < m + 1 := by omega
    have h3 : ¬ m = i := by omega
    simp [h1, h2, h3]

/-- The C mask `& ~(FX_ALIGN - 1)` on a 32-bit value rounds down to a
multiple of 16. -/
lemma land_mask16 (y : Nat) (hy : y < 4294967296) : y &&& 4294967280 = y / 16 * 16 := by
  have hmask : (4294967280 : Nat) = (2 ^ 28 - 1) <<< 4 := by rfl
  have hy' : y / 16 * 16 = (y >>> 4) <<< 4 := by
    rw [Nat.shiftRight_eq_div_pow, Nat.shiftLeft_eq]
  rw [hmask, hy']
  apply Nat.eq_of_testBit_eq
  intro i
  rw [Nat.testBit_land, Nat.testBit_shiftLeft, Nat.testBit_shiftLeft,
    Nat.testBit_two_pow_sub_one, Nat.testBit_shiftRight]
  by_cases h4 : 4 ≤ i
  · by_cases h32 : i < 32
    · have : 4 + (i - 4) = i := by omega
      simp [h4, this, h32]
      omega
    · have hbit : y.testBit i = false := by
        apply Nat.testBit_lt_two_pow
        calc y < 4294967296 := hy
        _ = 2 ^ 32 := by norm_num
        _ ≤ 2 ^ i := Nat.pow_le_pow_right (by omega) (by omega)
      have : 4 + (i - 4) = i := by omega
      simp [h4, this, hbit]
  · simp [h4]

/-- The bitmap word update of a successful claim sets exactly bit `r`. -/
lemma bitGet_set_or (A : List Nat) (r i : Nat) (hr : r / 32 < A.length) :
    bitGet (A.set (r / 32) ((A.getD (r / 32) 0) ||| (1 <<< (r % 32)))) i =
      (bitGet A i || decide (i = r)) := by
  unfold bitGet
  rw [List.getD_eq_getElem?_getD, List.getElem?_set, List.getD_eq_getElem?_getD]
  by_cases h : r / 32 = i / 32
  · rw [if_pos h, if_pos hr]
    simp only [Option.getD_some]
    rw [Nat.one_shiftLeft, Nat.testBit_lor, Nat.testBit_two_pow, h]
    have hiff : (r % 32 = i % 32) ↔ (i = r) := by omega
    simp [hiff]
  · rw [if_neg h]
    have hne : ¬ i = r := by omega
    simp [hne]

/-- The bitmap word update of a release clears exactly bit `idx`. -/
lemma bitGet_land_clear (A : List Nat) (idx i : Nat) (hr : idx / 32 < A.length) :
    bitGet (A.set (idx / 32)
        ((A.getD (idx / 32) 0) &&& (4294967295 ^^^ (1 <<< (idx % 32))))) i =
      (bitGet A i && !decide (i = idx)) := by
  unfold bitGet
  rw [List.getD_eq_getElem?_getD, List.getElem?_set, List.getD_eq_getElem?_getD]
  by_cases h : idx / 32 = i / 32
  · rw [if_pos h, if_pos hr]
    simp only [Option.getD_some]
    have hc : (4294967295 : Nat) = 2 ^ 32 - 1 := by norm_num
    rw [Nat.one_shiftLeft, Nat.testBit_land, Nat.testBit_xor, hc,
      Nat.testBit_two_pow_sub_one, Nat.testBit_two_pow, h]
    have h32 : i % 32 < 32 := Nat.mod_lt _ (by omega)
    have hiff : (idx % 32 = i % 32) ↔ (i = idx) := by omega
    by_cases he : i = idx
    · subst he
      cases hb : (A[i / 32]?.getD 0).testBit (i % 32) <;> simp [hb, h32]
    · have : ¬ idx % 32 = i % 32 := by rw [hiff]; exact he
      simp [he, h32, this]
  · rw [if_neg h]
    have hne : ¬ i = idx := by omega
    simp [hne]

/-- The zero-initialized bitmap has every bit clear. -/
lemma bitGet_replicate_zero (L i : Nat) : bitGet (List.replicate L 0) i = false := by
  unfold bitGet
  rw [List.getD_eq_getElem?_getD, List.getElem?_replicate]
  split <;> simp

/-- Claim C10 helper: with a positive capacity, the instrumented loop never
hits a modulo by zero or an oversized shift. -/
lemma allocLoopChk_isSome_of_pos (A : List Nat) (C : Nat) (hC : 1 ≤ C) :
    ∀ fuel free n, (allocLoopChk A C free n fuel).isSome := by
  intro fuel
  induction fuel with
  | zero => intro free n; simp [allocLoopChk]
  | succ f ih =>
    intro free n
    have h1 : chkMod ((free + 1) % 4294967296) C =
        some (((free + 1) % 4294967296) % C) := by
      unfold chkMod; rw [if_neg (by omega)]
    have h2 : chkShl 1 (free % 32) = some (1 <<< (free % 32)) := by
      unfold chkShl; rw [if_pos (Nat.mod_lt _ (by omega))]
    simp only [allocLoopChk, h1, h2]
    split
    · simp
    · split
      · simp
      · exact ih _ _

/-- C10: `fx_mem_pool_alloc` evaluates `(hint + 1) % n_available` on every
outer-loop iteration, so the loop body (instrumented with the C
well-definedness side conditions for `%` and `<<`) is free of division by
zero and oversized shifts if and only if the capacity is at least 1. -/
theorem c10_mod_zero_safety (A : List Nat) (C free n fuel : Nat) (hf : 1 ≤ fuel) :
    (allocLoopChk A C free n fuel).isSome ↔ 1 ≤ C := by
  constructor
  · intro h
    by_contra hC
    have hC0 : C = 0 := by omega
    subst hC0
    obtain ⟨f, rfl⟩ : ∃ f, fuel = f + 1 := ⟨fuel - 1, by omega⟩
    simp [allocLoopChk, chkMod] at h
  · intro hC
    exact allocLoopChk_isSome_of_pos A C hC fuel free n

/-- Witness for C10 at a concrete input. -/
theorem c10_witness : ((allocLoopChk [0] 1 0 0 1).isSome ↔ 1 ≤ 1) :=
  c10_mod_zero_safety [0] 1 0 0 1 (by decide)

/-- C6: in the sequential model, releasing index `k` lowers the hint to `k`
when `k` is below the current hint and leaves the observable hint value
unchanged when `k` is at or above it (for `k` equal to the hint the C code
performs a compare-and-swap that writes the same value back). -/
theorem c6_low_index_bias (k : Nat) (s : PoolState) :
    (k < s.free_idx → (fx_mem_pool_free k s).free_idx = k) ∧
    (s.free_idx ≤ k → (fx_mem_pool_free k s).free_idx = s.free_idx) := by
  simp only [fx_mem_pool_free]
  constructor <;> intro h
  · rw [if_pos (by omega)]
  · split
    · omega
    · rfl

/-- Witness for C6 at a concrete input. -/
theorem c6_witness : (fx_mem_pool_free 1 ⟨[], 3, 0⟩).free_idx = 1 :=
  (c6_low_index_bias 1 ⟨[], 3, 0⟩).1 (by decide)

/-! Layout planner: alignment arithmetic and the size accumulator. -/

/-- `FX_ALIGN_ADDR` as division arithmetic. -/
lemma fx_align_addr_eq (p : Nat) : fx_align_addr p = (p + 15) / 16 * 16 := by
  unfold fx_align_addr
  rw [Nat.shiftRight_eq_div_pow, Nat.shiftLeft_eq]
  have h1 : p + 16 - 1 = p + 15 := by omega
  have h2 : (2 : Nat) ^ 4 = 16 := by norm_num
  rw [h1, h2]

/-- Aligning never moves an address backwards. -/
lemma le_align (x : Nat) : x ≤ fx_align_addr x := by
  rw [fx_align_addr_eq]; omega

/-- Aligning moves an address forward by at most 15 bytes. -/
lemma align_le_add (x : Nat) : fx_align_addr x ≤ x + 15 := by
  rw [fx_align_addr_eq]; omega

/-- Aligned addresses are multiples of 16. -/
lemma align_mod (x : Nat) : fx_align_addr x % 16 = 0 := by
  rw [fx_align_addr_eq]; omega

/-- Aligning stays below any 16-multiple upper bound. -/
lemma align_le_target (cur X : Nat) (h : cur ≤ X) (hX : X % 16 = 0) :
    fx_align_addr cur ≤ X := by
  rw [fx_align_addr_eq]; omega

/-- Exact characterization of one `fx_mem_update_size` step for a 32-bit
accumulator and a byte count of at most `2^32 - 16`: without wrap the call
succeeds and stores the rounded sum; with wrap it fails. -/
lemma update_size_eq (s n : Nat) (hs : s < 4294967296) (hn : n ≤ 4294967280) :
    (s + n + 15 < 4294967296 ∧
       fx_mem_update_size s n = (true, (s + n + 15) / 16 * 16)) ∨
    (4294967296 ≤ s + n + 15 ∧ fx_mem_update_size s n = (false, s)) := by
  by_cases hbig : s + n + 15 < 4294967296
  · left
    refine ⟨hbig, ?_⟩
    have hv : ((s + n + 16 - 1) % 4294967296) &&& 4294967280 =
        (s + n + 15) / 16 * 16 := by
      have h1 : s + n + 16 - 1 = s + n + 15 := by omega
      rw [h1, Nat.mod_eq_of_lt hbig, land_mask16 _ hbig]
    simp only [fx_mem_update_size, hv]
    rw [if_neg (by omega)]
  · right
    refine ⟨by omega, ?_⟩
    have hle : ((s + n + 16 - 1) % 4294967296) &&& 4294967280 ≤
        s + n + 15 - 4294967296 := by
      have h1 : s + n + 16 - 1 = s + n + 15 := by omega
      have h2 : (s + n + 15) % 4294967296 = s + n + 15 - 4294967296 := by omega
      rw [h1, h2]
      exact Nat.and_le_left
    simp only [fx_mem_update_size]
    rw [if_pos (by omega)]

/-- `fx_carve` produces one address per sub-structure size. -/
lemma fx_carve_length : ∀ (sizes : List Nat) (cur : Nat),
    (fx_carve cur sizes).length = sizes.length
  | [], _ => rfl
  | n :: rest, cur => by
    simp [fx_carve, fx_mem_align, fx_carve_length rest]

/-- Invariant of the layout composition contract: starting from a 16-multiple
accumulator `acc` of at least 16 and a cursor bounded by
`fx_align_addr base + (acc - 16)`, a successful `totalSizeAux` chain keeps
the accumulator a growing, bounded 16-multiple, and the carved addresses are
aligned, chained without overlap, and bounded by the final accumulator. -/
lemma layout_chain (base : Nat) :
    ∀ (sizes : List Nat) (acc cur : Nat),
      (∀ n ∈ sizes, n ≤ 4294967280) →
      acc % 16 = 0 → 16 ≤ acc → acc < 4294967296 →
      cur ≤ fx_align_addr base + (acc - 16) →
      (totalSizeAux acc sizes).1 = true →
      acc ≤ (totalSizeAux acc sizes).2 ∧
      (totalSizeAux acc sizes).2 < 4294967296 ∧
      (totalSizeAux acc sizes).2 % 16 = 0 ∧
      (∀ i, i < sizes.length → (fx_carve cur sizes).getD i 0 % 16 = 0) ∧
      (∀ i, i + 1 < sizes.length →
        (fx_carve cur sizes).getD i 0 + sizes.getD i 0 ≤
          (fx_carve cur sizes).getD (i + 1) 0) ∧
      (∀ i, i < sizes.length →
        (fx_carve cur sizes).getD i 0 + sizes.getD i 0 ≤
          fx_align_addr base + ((totalSizeAux acc sizes).2 - 16))
  | [], acc, cur => by
    intro _ h16 hge hlt hcur hok
    refine ⟨Nat.le_refl _, hlt, h16, ?_, ?_, ?_⟩ <;> intro i hi <;> simp at hi
  | n :: rest, acc, cur => by
    intro hb h16 hge hlt hcur hok
    rcases update_size_eq acc n hlt (hb n (by simp)) with ⟨hsm, hueq⟩ | ⟨hbig, hueq⟩
    · have htot : totalSizeAux acc (n :: rest) =
          totalSizeAux ((acc + n + 15) / 16 * 16) rest := by
        simp [totalSizeAux, hueq]
      have hok2 : (totalSizeAux ((acc + n + 15) / 16 * 16) rest).1 = true := by
        rw [← htot]; exact hok
      have hsz2m : (acc + n + 15) / 16 * 16 % 16 = 0 := by omega
      have hsz2ge : 16 ≤ (acc + n + 15) / 16 * 16 := by omega
      have hsz2lt : (acc + n + 15) / 16 * 16 < 4294967296 := by omega
      have hacc_le : acc + n ≤ (acc + n + 15) / 16 * 16 := by omega
      have hcarve : fx_carve cur (n :: rest) =
          fx_align_addr cur :: fx_carve (fx_align_addr cur + n) rest := by
        simp [fx_carve, fx_mem_align]
      have ha0align : fx_align_addr cur % 16 = 0 := align_mod cur
      have ha0le : fx_align_addr cur ≤ fx_align_addr base + (acc - 16) := by
        apply align_le_target cur _ hcur
        have := align_mod base
        omega
      have hcur2 : fx_align_addr cur + n ≤
          fx_align_addr base + ((acc + n + 15) / 16 * 16 - 16) := by omega
      obtain ⟨ih1, ih2, ih3, ih4, ih5, ih6⟩ :=
        layout_chain base rest ((acc + n + 15) / 16 * 16) (fx_align_addr cur + n)
          (fun m hm => hb m (by simp [hm])) hsz2m hsz2ge hsz2lt hcur2 hok2
      rw [htot, hcarve]
      refine ⟨by omega, ih2, ih3, ?_, ?_, ?_⟩
      · intro i hi
        cases i with
        | zero => simpa using ha0align
        | succ j =>
          simp only [List.getD_cons_succ]
          exact ih4 j (by simpa using hi)
      · intro i hi
        cases i with
        | zero =>
          cases rest with
          | nil => simp at hi
          | cons m r2 =>
            have hh : fx_carve (fx_align_addr cur + n) (m :: r2) =
                fx_align_addr (fx_align_addr cur + n) ::
                  fx_carve (fx_align_addr (fx_align_addr cur + n) + m) r2 := by
              simp [fx_carve, fx_mem_align]
            simp only [List.getD_cons_zero, List.getD_cons_succ, hh]
            exact le_align _
        | succ j =>
          simp only [List.getD_cons_succ]
          exact ih5 j (by simpa using hi)
      · intro i hi
        cases i with
        | zero =>
          simp only [List.getD_cons_zero]
          omega
        | succ j =>
          simp only [List.getD_cons_succ]
          exact ih6 j (by simpa using hi)
    · exfalso
      have : (totalSizeAux acc (n :: rest)).1 = false := by
        simp [totalSizeAux, hueq]
      rw [this] at hok
      exact Bool.false_ne_true hok

/-- C4 (amended): starting the cursor at any base address `b` and applying
`fx_mem_align` to the same ordered sizes that a successful `fx_mem_init_size`
/ `fx_mem_update_size` chain accumulated to total `T`, every address is
16-byte aligned, consecutive sub-structures do not overlap, and every
sub-structure ends within `b + T` - provided every byte size is at most
`2^32 - 16`, which is what makes an undetected 32-bit wrap of the
accumulator impossible. -/
theorem c4_layout_contract (b : Nat) (sizes : List Nat) (i : Nat)
    (hb : ∀ n ∈ sizes, n ≤ 4294967280)
    (hok : (totalSizeAux fx_mem_init_size.2 sizes).1 = true) :
    (i < sizes.length →
      (fx_carve b sizes).getD i 0 % 16 = 0 ∧
      (fx_carve b sizes).getD i 0 + sizes.getD i 0 ≤
        b + (totalSizeAux fx_mem_init_size.2 sizes).2) ∧
    (i + 1 < sizes.length →
      (fx_carve b sizes).getD i 0 + sizes.getD i 0 ≤
        (fx_carve b sizes).getD (i + 1) 0) := by
  have hinit : (fx_mem_init_size.2 : Nat) = 16 := rfl
  rw [hinit] at hok ⊢
  obtain ⟨ih1, ih2, ih3, ih4, ih5, ih6⟩ :=
    layout_chain b sizes 16 b hb (by norm_num) (by norm_num) (by norm_num)
      (by simpa using le_align b) hok
  have halign := align_le_add b
  constructor
  · intro hi
    refine ⟨ih4 i hi, ?_⟩
    have := ih6 i hi
    omega
  · intro hi
    exact ih5 i hi

/-- Witness for C4 at a concrete input: base 3, sizes 5 and 20. -/
theorem c4_witness :
    (0 < ([5, 20] : List Nat).length →
      (fx_carve 3 [5, 20]).getD 0 0 % 16 = 0 ∧
      (fx_carve 3 [5, 20]).getD 0 0 + ([5, 20] : List Nat).getD 0 0 ≤
        3 + (totalSizeAux fx_mem_init_size.2 [5, 20]).2) ∧
    (0 + 1 < ([5, 20] : List Nat).length →
      (fx_carve 3 [5, 20]).getD 0 0 + ([5, 20] : List Nat).getD 0 0 ≤
        (fx_carve 3 [5, 20]).getD (0 + 1) 0) :=
  c4_layout_contract 3 [5, 20] 0 (by decide) (by decide)

/-- Counterexample to C4 as stated: with the single size `2^32 - 1` and base
address 0, the sizing chain succeeds with total 16 (the 32-bit rounded sum
wraps undetected), yet the one carved sub-structure at address 0 with size
`2^32 - 1` does not fit within `0 + 16`. -/
theorem c4_counterexample :
    (totalSizeAux fx_mem_init_size.2 [4294967295]).1 = true ∧
    (totalSizeAux fx_mem_init_size.2 [4294967295]).2 = 16 ∧
    fx_carve 0 [4294967295] = [0] ∧
    ¬ ((fx_carve 0 [4294967295]).getD 0 0 + ([4294967295] : List Nat).getD 0 0 ≤
        0 + (totalSizeAux fx_mem_init_size.2 [4294967295]).2) :=
  ⟨by decide, by decide, by decide, by decide⟩

/-- C5 (amended): for a 32-bit accumulator `s` and a byte count of at most
`2^32 - 16`, whenever the mathematical rounded sum reaches `2^32` (i.e. the
32-bit computation wraps), `fx_mem_update_size` returns `false`. -/
theorem c5_overflow_signaled (s n : Nat) (hs : s < 4294967296)
    (hn : n ≤ 4294967280) (hwrap : 4294967296 ≤ specRoundUp16 (s + n)) :
    (fx_mem_update_size s n).1 = false := by
  rcases update_size_eq s n hs hn with ⟨hsm, hueq⟩ | ⟨_, hueq⟩
  · exfalso
    unfold specRoundUp16 at hwrap
    omega
  · rw [hueq]

/-- Witness for C5 at a concrete input. -/
theorem c5_witness : (fx_mem_update_size 16 4294967280).1 = false :=
  c5_overflow_signaled 16 4294967280 (by decide) (by decide) (by decide)

/-- Counterexample to C5 as stated: at accumulator 0 and byte count
`2^32 - 2` (the input of the repository's own `test_mem_update_size_overflow`
test), the mathematical rounded sum is `2^32`, which wraps in 32-bit
arithmetic, yet the function returns `true` (with the accumulator set
to 0). -/
theorem c5_counterexample :
    fx_mem_update_size 0 4294967294 = (true, 0) ∧
    4294967296 ≤ specRoundUp16 (0 + 4294967294) :=
  ⟨by decide, by decide⟩

/-! Slot pool allocator: behaviour of the outer claim loop. -/

/-- The C bit test phrased through `bitGet`. -/
lemma bitGet_land_iff (A : List Nat) (i : Nat) :
    ((A.getD (i / 32) 0) &&& (1 <<< (i % 32)) = 0) ↔ bitGet A i = false :=
  land_shift_zero_iff _ _

/-- With the counter at or above capacity, the first loop iteration returns
the sentinel, leaving bitmap and counter untouched and the hint advanced
once. -/
lemma allocLoop_sentinel (A : List Nat) (C free n fuel : Nat) (hc : C ≤ n)
    (hf : 1 ≤ fuel) :
    allocLoop A C free n fuel = some (C, ⟨A, ((free + 1) % 4294967296) % C, n⟩) := by
  obtain ⟨f, rfl⟩ : ∃ f, fuel = f + 1 := ⟨fuel - 1, by omega⟩
  simp only [allocLoop]
  rw [if_pos hc]

/-- With the counter strictly below capacity, any result of the loop is a
slot index below capacity (the sentinel is never produced). -/
lemma allocLoop_no_sentinel (A : List Nat) (C n : Nat) (hn : n < C)
    (hC1 : 1 ≤ C) :
    ∀ fuel free, free < C → ∀ r s2, allocLoop A C free n fuel = some (r, s2) → r < C := by
  intro fuel
  induction fuel with
  | zero =>
    intro free _ r s2 h
    simp [allocLoop] at h
  | succ f ih =>
    intro free hfree r s2 h
    simp only [allocLoop] at h
    rw [if_neg (by omega)] at h
    split at h
    · simp only [Option.some.injEq, Prod.mk.injEq] at h
      obtain ⟨rfl, -⟩ := h
      exact hfree
    · exact ih _ (Nat.mod_lt _ (by omega)) r s2 h

/-- With the counter strictly below capacity and a clear bit reachable
within the remaining fuel, the loop returns a free index below capacity,
sets exactly its bit and increments the counter. -/
lemma allocLoop_success (A : List Nat) (C n : Nat) (hC2 : C < 4294967296)
    (hn : n < C) :
    ∀ fuel free, free < C →
      (∃ t, t < fuel ∧ bitGet A ((free + t) % C) = false) →
      ∃ r, r < C ∧ bitGet A r = false ∧
        allocLoop A C free n fuel =
          some (r, ⟨A.set (r / 32) ((A.getD (r / 32) 0) ||| (1 <<< (r % 32))),
            (r + 1) % C, n + 1⟩) := by
  intro fuel
  induction fuel with
  | zero =>
    rintro free hfree ⟨t, ht, -⟩
    omega
  | succ f ih =>
    rintro free hfree ⟨t, ht, hbit⟩
    have hC1 : 1 ≤ C := by omega
    have hfree2 : ((free + 1) % 4294967296) % C = (free + 1) % C := by
      have h1 : (free + 1) % 4294967296 = free + 1 := Nat.mod_eq_of_lt (by omega)
      rw [h1]
    by_cases hb : bitGet A free = false
    · refine ⟨free, hfree, hb, ?_⟩
      simp only [allocLoop]
      rw [if_neg (by omega), if_pos ((bitGet_land_iff A free).mpr hb), hfree2,
        Nat.mod_eq_of_lt (show n + 1 < 4294967296 by omega)]
    · have hbt : bitGet A free = true := by
        cases hx : bitGet A free
        · exact absurd hx hb
        · rfl
      have ht0 : t ≠ 0 := by
        intro h0
        subst h0
        rw [Nat.add_zero, Nat.mod_eq_of_lt hfree] at hbit
        rw [hbit] at hbt
        exact Bool.false_ne_true hbt
      obtain ⟨t2, rfl⟩ : ∃ t2, t = t2 + 1 := ⟨t - 1, by omega⟩
      have hwit : bitGet A (((free + 1) % C + t2) % C) = false := by
        have hmm : ((free + 1) % C + t2) % C = (free + (t2 + 1)) % C := by
          rw [Nat.mod_add_mod]
          congr 1
          omega
        rw [hmm]
        exact hbit
      have hstep : allocLoop A C free n (f + 1) = allocLoop A C ((free + 1) % C) n f := by
        simp only [allocLoop]
        rw [if_neg (by omega), if_neg ?hcond, hfree2]
        case hcond =>
          intro hc
          rw [(bitGet_land_iff A free).mp hc] at hbt
          exact Bool.false_ne_true hbt
      rw [hstep]
      exact ih ((free + 1) % C) (Nat.mod_lt _ (by omega)) ⟨t2, by omega, hwit⟩

/-- A counter below capacity means some slot below capacity is free. -/
lemma exists_clear_bit (A : List Nat) (C n : Nat)
    (hcount : n = ((Finset.range C).filter (fun i => bitGet A i = true)).card)
    (hn : n < C) : ∃ j, j < C ∧ bitGet A j = false := by
  by_contra h
  push_neg at h
  have hall : ∀ j ∈ Finset.range C, bitGet A j = true := by
    intro j hj
    have hne := h j (Finset.mem_range.mp hj)
    cases hx : bitGet A j
    · exact absurd hx hne
    · rfl
  have hfil : (Finset.range C).filter (fun i => bitGet A i = true) = Finset.range C :=
    Finset.filter_true_of_mem hall
  rw [hfil, Finset.card_range] at hcount
  omega

/-- Any slot `j` is reached from hint `free` in fewer than `C` advances. -/
lemma exists_probe_offset (C free j : Nat) (hfree : free < C) (hj : j < C) :
    ∃ t, t < C ∧ (free + t) % C = j := by
  by_cases hle : free ≤ j
  · refine ⟨j - free, by omega, ?_⟩
    have : free + (j - free) = j := by omega
    rw [this, Nat.mod_eq_of_lt hj]
  · refine ⟨j + C - free, by omega, ?_⟩
    have : free + (j + C - free) = j + C := by omega
    rw [this, Nat.add_mod_right, Nat.mod_eq_of_lt hj]

/-- Exact sequential behaviour of `fx_mem_pool_alloc` on a well-formed
state: with the counter at capacity it returns the sentinel and only
advances the hint; otherwise it returns some free slot `r`, sets exactly
bit `r`, increments the counter and moves the hint just past `r`. -/
lemma fx_alloc_spec (C : Nat) (s : PoolState) (hWF : PoolWF C s)
    (hC1 : 1 ≤ C) (hC2 : C < 4294967296) :
    (C ≤ s.n_allocated ∧
       fx_mem_pool_alloc C s =
         some (C, ⟨s.allocated, (s.free_idx + 1) % C, s.n_allocated⟩)) ∨
    (s.n_allocated < C ∧ ∃ r, r < C ∧ bitGet s.allocated r = false ∧
       fx_mem_pool_alloc C s =
         some (r, ⟨s.allocated.set (r / 32)
             ((s.allocated.getD (r / 32) 0) ||| (1 <<< (r % 32))),
           (r + 1) % C, s.n_allocated + 1⟩)) := by
  obtain ⟨hlen, hw, hfree, hhigh, hcount⟩ := hWF
  by_cases hc : C ≤ s.n_allocated
  · left
    refine ⟨hc, ?_⟩
    unfold fx_mem_pool_alloc
    rw [allocLoop_sentinel s.allocated C s.free_idx s.n_allocated C hc (by omega)]
    rw [Nat.mod_eq_of_lt (show s.free_idx + 1 < 4294967296 by omega)]
  · right
    have hn : s.n_allocated < C := by omega
    refine ⟨hn, ?_⟩
    obtain ⟨j, hj, hjbit⟩ := exists_clear_bit s.allocated C s.n_allocated hcount hn
    obtain ⟨t, htC, htj⟩ := exists_probe_offset C s.free_idx j hfree hj
    exact allocLoop_success s.allocated C s.n_allocated hC2 hn C s.free_idx hfree
      ⟨t, by omega, by rw [htj]; exact hjbit⟩

/-- The zero-initialized pool is well-formed for any positive capacity. -/
lemma emptyPool_WF (C : Nat) (hC : 1 ≤ C) : PoolWF C (emptyPool C) := by
  refine ⟨by simp [emptyPool], ?_, by simpa [emptyPool] using hC, ?_, ?_⟩
  · intro w hw
    have := List.eq_of_mem_replicate hw
    omega
  · intro i _
    exact bitGet_replicate_zero _ i
  · have hfil : (Finset.range C).filter
        (fun i => bitGet (emptyPool C).allocated i = true) = ∅ := by
      apply Finset.filter_false_of_mem
      intro i _
      simp [emptyPool, bitGet_replicate_zero]
    simp [emptyPool] at hfil ⊢
    rw [hfil]
    rfl

/-- C8: on any well-formed pool state of positive capacity, the sequential
claim terminates within at most `C` outer-loop iterations (the fuel of
`fx_mem_pool_alloc` is exactly `C`): with the counter at or above capacity
it returns the sentinel `C`, otherwise it returns a free slot index below
`C`. -/
theorem c8_termination (C : Nat) (s : PoolState) (hWF : PoolWF C s)
    (hC1 : 1 ≤ C) (hC2 : C < 4294967296) :
    ∃ r s2, fx_mem_pool_alloc C s = some (r, s2) ∧
      (C ≤ s.n_allocated → r = C) ∧
      (s.n_allocated < C → r < C ∧ bitGet s.allocated r = false) := by
  rcases fx_alloc_spec C s hWF hC1 hC2 with ⟨hc, heq⟩ | ⟨hn, r, hr, hrbit, heq⟩
  · exact ⟨C, _, heq, fun _ => rfl, fun h => absurd hc (by omega)⟩
  · exact ⟨r, _, heq, fun h => by omega, fun _ => ⟨hr, hrbit⟩⟩

/-- Witness for C8 at a concrete input. -/
theorem c8_witness :
    ∃ r s2, fx_mem_pool_alloc 1 (emptyPool 1) = some (r, s2) ∧
      (1 ≤ (emptyPool 1).n_allocated → r = 1) ∧
      ((emptyPool 1).n_allocated < 1 → r < 1 ∧ bitGet (emptyPool 1).allocated r = false) :=
  c8_termination 1 (emptyPool 1) (emptyPool_WF 1 (by decide)) (by decide) (by decide)

/-- C9: a sequential claim that returns the sentinel is not side-effect
free: it has advanced the shared hint once, `(free_idx + 1) % C`, while
leaving the bitmap and the counter unchanged (and such a return only
happens with the counter already at capacity). -/
theorem c9_sentinel_side_effect (C : Nat) (s s2 : PoolState)
    (hC1 : 1 ≤ C) (hC2 : C < 4294967296) (hfree : s.free_idx < C)
    (h : fx_mem_pool_alloc C s = some (C, s2)) :
    s2.allocated = s.allocated ∧ s2.n_allocated = s.n_allocated ∧
    s2.free_idx = (s.free_idx + 1) % C ∧ C ≤ s.n_allocated := by
  by_cases hc : C ≤ s.n_allocated
  · have hs := allocLoop_sentinel s.allocated C s.free_idx s.n_allocated C hc (by omega)
    unfold fx_mem_pool_alloc at h
    rw [hs] at h
    simp only [Option.some.injEq, Prod.mk.injEq] at h
    obtain ⟨-, rfl⟩ := h
    refine ⟨rfl, rfl, ?_, hc⟩
    have h1 : (s.free_idx + 1) % 4294967296 = s.free_idx + 1 :=
      Nat.mod_eq_of_lt (by omega)
    simp only [h1]
  · exfalso
    have := allocLoop_no_sentinel s.allocated C s.n_allocated (by omega) (by omega)
      C s.free_idx hfree C s2 h
    omega

/-- Witness for C9 at a concrete input. -/
theorem c9_witness :
    (⟨[1], 0, 1⟩ : PoolState).allocated = (⟨[1], 0, 1⟩ : PoolState).allocated ∧
    (⟨[1], 0, 1⟩ : PoolState).n_allocated = (⟨[1], 0, 1⟩ : PoolState).n_allocated ∧
    (⟨[1], 0, 1⟩ : PoolState).free_idx = ((⟨[1], 0, 1⟩ : PoolState).free_idx + 1) % 1 ∧
    1 ≤ (⟨[1], 0, 1⟩ : PoolState).n_allocated :=
  c9_sentinel_side_effect 1 ⟨[1], 0, 1⟩ ⟨[1], 0, 1⟩ (by decide) (by decide)
    (by decide) rfl

/-! Sequential determinism and exhaustion. -/

/-- One loop iteration on a clear probed bit claims it immediately. -/
lemma allocLoop_eq_of_clear (A : List Nat) (C free n fuel : Nat)
    (hfuel : 1 ≤ fuel) (hn : n < C) (hclear : bitGet A free = false) :
    allocLoop A C free n fuel =
      some (free, ⟨A.set (free / 32) ((A.getD (free / 32) 0) ||| (1 <<< (free % 32))),
        ((free + 1) % 4294967296) % C, (n + 1) % 4294967296⟩) := by
  obtain ⟨f, rfl⟩ : ∃ f, fuel = f + 1 := ⟨fuel - 1, by omega⟩
  simp only [allocLoop]
  rw [if_neg (by omega), if_pos ((bitGet_land_iff A free).mpr hclear)]

/-- Optional indexing into the canonical bitmap. -/
lemma mkWords_getElem? (C j n : Nat) :
    (mkWords C j)[n]? =
      if n < (C + 31) / 32 then some (2 ^ (min 32 (j - 32 * n)) - 1) else none := by
  unfold mkWords
  rw [List.getElem?_map]
  by_cases hn : n < (C + 31) / 32
  · rw [if_pos hn, List.getElem?_eq_getElem (by simpa using hn), List.getElem_range]
    rfl
  · rw [if_neg hn, List.getElem?_eq_none (by rw [List.length_range]; omega)]
    rfl

/-- The word holding slot `k` in the `k`-slots-allocated bitmap. -/
lemma mkWords_getD (C k : Nat) (hk : k < C) :
    (mkWords C k).getD (k / 32) 0 = 2 ^ (k % 32) - 1 := by
  have hlt : k / 32 < (C + 31) / 32 := by omega
  rw [List.getD_eq_getElem?_getD, mkWords_getElem?, if_pos hlt]
  have hexp : min 32 (k - 32 * (k / 32)) = k % 32 := by omega
  rw [hexp]
  rfl

/-- Slot `k` is still clear in the `k`-slots-allocated bitmap. -/
lemma mkWords_bit_self (C k : Nat) (hk : k < C) :
    bitGet (mkWords C k) k = false := by
  unfold bitGet
  rw [mkWords_getD C k hk, Nat.testBit_two_pow_sub_one]
  simp

/-- Setting slot `k`'s bit in the `k`-slots-allocated bitmap yields the
`(k+1)`-slots-allocated bitmap. -/
lemma mkWords_set (C k : Nat) (hk : k < C) :
    (mkWords C k).set (k / 32) (2 ^ (k % 32 + 1) - 1) = mkWords C (k + 1) := by
  have hlen : (mkWords C k).length = (C + 31) / 32 := by simp [mkWords]
  apply List.ext_getElem?
  intro n
  rw [List.getElem?_set, mkWords_getElem?, mkWords_getElem?, hlen]
  by_cases hkn : k / 32 = n
  · subst hkn
    have hlt : k / 32 < (C + 31) / 32 := by omega
    rw [if_pos rfl, if_pos hlt, if_pos hlt]
    have hexp : min 32 (k + 1 - 32 * (k / 32)) = k % 32 + 1 := by omega
    rw [hexp]
  · rw [if_neg hkn]
    by_cases hn : n < (C + 31) / 32
    · rw [if_pos hn, if_pos hn]
      have hexp : min 32 (k - 32 * n) = min 32 (k + 1 - 32 * n) := by omega
      rw [hexp]
    · rw [if_neg hn, if_neg hn]

/-- One successful sequential claim on the canonical `k`-claims state
returns `k` and produces the canonical `(k+1)`-claims state. -/
lemma seq_step (C k : Nat) (hk : k < C) (hC2 : C < 4294967296) :
    fx_mem_pool_alloc C (mkSeqState C k) = some (k, mkSeqState C (k + 1)) := by
  unfold fx_mem_pool_alloc
  have hfree : (mkSeqState C k).free_idx = k := Nat.mod_eq_of_lt hk
  have hA : (mkSeqState C k).allocated = mkWords C k := rfl
  have hn : (mkSeqState C k).n_allocated = k := rfl
  rw [hfree, hA, hn,
    allocLoop_eq_of_clear (mkWords C k) C k k C (by omega) hk (mkWords_bit_self C k hk)]
  have h1 : (mkWords C k).getD (k / 32) 0 ||| (1 <<< (k % 32)) = 2 ^ (k % 32 + 1) - 1 := by
    rw [mkWords_getD C k hk, Nat.one_shiftLeft, low_or_pow]
  rw [h1, mkWords_set C k hk]
  have h2 : (k + 1) % 4294967296 = k + 1 := Nat.mod_eq_of_lt (by omega)
  rw [h2]
  rfl

/-- Sequential claims walk the canonical states, returning consecutive
indices. -/
lemma allocN_seq (C : Nat) (hC2 : C < 4294967296) :
    ∀ (j k : Nat), k + j ≤ C →
      allocN C j (mkSeqState C k) = some (List.range' k j, mkSeqState C (k + j))
  | 0, k => by
    intro h
    simp [allocN, List.range']
  | j + 1, k => by
    intro h
    have hstep := seq_step C k (by omega) hC2
    have hrec := allocN_seq C hC2 j (k + 1) (by omega)
    simp only [allocN, hstep, hrec, List.range'_succ]
    have hkj : k + 1 + j = k + (j + 1) := by omega
    rw [hkj]

/-- The zero-initialized pool is the canonical zero-claims state. -/
lemma emptyPool_eq_seq (C : Nat) : emptyPool C = mkSeqState C 0 := by
  unfold emptyPool mkSeqState mkWords
  have h1 : (List.range ((C + 31) / 32)).map (fun w => 2 ^ (min 32 (0 - 32 * w)) - 1) =
      List.replicate ((C + 31) / 32) 0 := by
    have h2 : (fun w : Nat => 2 ^ (min 32 (0 - 32 * w)) - 1) = fun _ : Nat => (0 : Nat) := by
      funext w
      have : min 32 (0 - 32 * w) = 0 := by omega
      rw [this]
      rfl
    rw [h2, List.map_const', List.length_range]
  rw [h1, Nat.zero_mod]

/-- Shared content of C2 and C3: from the zero-initialized pool, `C`
sequential claims return `0, 1, ..., C-1` in order and land in the
canonical fully-allocated state. -/
lemma seq_fill (C : Nat) (hC2 : C < 4294967296) :
    allocN C C (emptyPool C) = some (List.range C, mkSeqState C C) := by
  rw [emptyPool_eq_seq, List.range_eq_range']
  simpa using allocN_seq C hC2 C 0 (by omega)

/-- C2: from a zero-initialized pool of capacity `C >= 1` (any 32-bit
capacity), `C` sequential claims with no interleaved release return exactly
the indices `0, 1, ..., C-1` in that order. -/
theorem c2_sequential_determinism (C : Nat) (hC1 : 1 ≤ C) (hC2 : C < 4294967296) :
    allocN C C (emptyPool C) = some (List.range C, mkSeqState C C) :=
  seq_fill C hC2

/-- Witness for C2 at a concrete input. -/
theorem c2_witness : allocN 3 3 (emptyPool 3) = some (List.range 3, mkSeqState 3 3) :=
  c2_sequential_determinism 3 (by decide) (by decide)

/-- With the counter at capacity, `m` further claims all return the
sentinel `C`, leaving bitmap and counter unchanged and advancing the hint
`m` times. -/
lemma allocN_sentinel (C : Nat) (hC1 : 1 ≤ C) (hC2 : C < 4294967296) :
    ∀ (m : Nat) (s : PoolState), C ≤ s.n_allocated → s.free_idx < C →
      allocN C m s =
        some (List.replicate m C, ⟨s.allocated, (s.free_idx + m) % C, s.n_allocated⟩)
  | 0, s => by
    intro hc hf
    have h : (s.free_idx + 0) % C = s.free_idx := by
      rw [Nat.add_zero, Nat.mod_eq_of_lt hf]
    simp only [allocN, List.replicate]
    rw [h]
  | m + 1, s => by
    intro hc hf
    have hstep : fx_mem_pool_alloc C s =
        some (C, ⟨s.allocated, (s.free_idx + 1) % C, s.n_allocated⟩) := by
      unfold fx_mem_pool_alloc
      rw [allocLoop_sentinel s.allocated C s.free_idx s.n_allocated C hc (by omega)]
      have h1 : (s.free_idx + 1) % 4294967296 = s.free_idx + 1 :=
        Nat.mod_eq_of_lt (by omega)
      rw [h1]
    have hrec := allocN_sentinel C hC1 hC2 m
      ⟨s.allocated, (s.free_idx + 1) % C, s.n_allocated⟩ hc (Nat.mod_lt _ (by omega))
    simp only [allocN, hstep, hrec, List.replicate_succ]
    have h2 : (((s.free_idx + 1) % C) + m) % C = (s.free_idx + (m + 1)) % C := by
      rw [Nat.mod_add_mod]
      congr 1
      omega
    rw [h2]

/-- C3: after the `C` successful sequential claims from the empty pool,
every further claim returns the sentinel `C` (equal to the capacity and
distinct from every valid index, all below `C`): the next `m` calls return
`C` each, for every `m`. -/
theorem c3_exhaustion (C m : Nat) (hC1 : 1 ≤ C) (hC2 : C < 4294967296) :
    allocN C C (emptyPool C) = some (List.range C, mkSeqState C C) ∧
    allocN C m (mkSeqState C C) = some (List.replicate m C, ⟨mkWords C C, m % C, C⟩) := by
  refine ⟨seq_fill C hC2, ?_⟩
  have h := allocN_sentinel C hC1 hC2 m (mkSeqState C C)
    (by simp [mkSeqState]) (by simp [mkSeqState]; omega)
  rw [h]
  have h2 : ((mkSeqState C C).free_idx + m) % C = m % C := by
    have h3 : (mkSeqState C C).free_idx = 0 := by simp [mkSeqState]
    rw [h3, Nat.zero_add]
  rw [h2]
  rfl

/-- Witness for C3 at a concrete input. -/
theorem c3_witness :
    allocN 2 2 (emptyPool 2) = some (List.range 2, mkSeqState 2 2) ∧
    allocN 2 3 (mkSeqState 2 2) = some (List.replicate 3 2, ⟨mkWords 2 2, 3 % 2, 2⟩) :=
  c3_exhaustion 2 3 (by decide) (by decide)

/-! Trace invariant for well-formed claim/release sequences. -/

/-- A duplicate-free list of indices below `C` has at most `C` elements. -/
lemma held_length_le (C : Nat) (held : List Nat) (hnd : held.Nodup)
    (hmem : ∀ i ∈ held, i < C) : held.length ≤ C := by
  classical
  rw [← List.toFinset_card_of_nodup hnd]
  have hsub : held.toFinset ⊆ Finset.range C := by
    intro i hi
    rw [List.mem_toFinset] at hi
    exact Finset.mem_range.mpr (hmem i hi)
  calc held.toFinset.card ≤ (Finset.range C).card := Finset.card_le_card hsub
  _ = C := Finset.card_range C

/-- The trace invariant implies structural well-formedness. -/
lemma inv_wf (C : Nat) (held : List Nat) (s : PoolState)
    (h : PoolInv C held s) : PoolWF C s := by
  obtain ⟨hlen, hw, hfree, hnd, hmem, hbits, hcnt⟩ := h
  refine ⟨hlen, hw, hfree, ?_, ?_⟩
  · intro i hi
    cases hx : bitGet s.allocated i
    · rfl
    · exfalso
      have h1 := hmem i ((hbits i).mp hx)
      omega
  · have hfil : (Finset.range C).filter (fun i => bitGet s.allocated i = true) =
        held.toFinset := by
      ext i
      simp only [Finset.mem_filter, Finset.mem_range, List.mem_toFinset]
      constructor
      · rintro ⟨-, hb⟩
        exact (hbits i).mp hb
      · intro hi
        exact ⟨hmem i hi, (hbits i).mpr hi⟩
    rw [hcnt, hfil, List.toFinset_card_of_nodup hnd]

/-- Under the trace invariant, the number of set bits in the bitmap is the
number of currently held indices. -/
lemma bitmapCount_eq (C : Nat) (held : List Nat) (s : PoolState)
    (hInv : PoolInv C held s) : bitmapCount s.allocated = held.length := by
  obtain ⟨hlen, hw, hfree, hnd, hmem, hbits, hcnt⟩ := hInv
  unfold bitmapCount
  have hfil : (Finset.range (32 * s.allocated.length)).filter
      (fun i => bitGet s.allocated i = true) = held.toFinset := by
    ext i
    simp only [Finset.mem_filter, Finset.mem_range, List.mem_toFinset]
    constructor
    · rintro ⟨-, hb⟩
      exact (hbits i).mp hb
    · intro hi
      refine ⟨?_, (hbits i).mpr hi⟩
      have h1 := hmem i hi
      rw [hlen]
      omega
  rw [hfil, List.toFinset_card_of_nodup hnd]

/-- A successful claim of the free slot `r` preserves the trace invariant,
with `r` added to the held indices. -/
lemma inv_alloc_succ (C : Nat) (held : List Nat) (s : PoolState) (r : Nat)
    (hInv : PoolInv C held s) (hr : r < C) (hrbit : bitGet s.allocated r = false) :
    PoolInv C (r :: held)
      ⟨s.allocated.set (r / 32) ((s.allocated.getD (r / 32) 0) ||| (1 <<< (r % 32))),
        (r + 1) % C, s.n_allocated + 1⟩ := by
  obtain ⟨hlen, hw, hfree, hnd, hmem, hbits, hcnt⟩ := hInv
  have hrlen : r / 32 < s.allocated.length := by rw [hlen]; omega
  refine ⟨?_, ?_, ?_, ?_, ?_, ?_, ?_⟩
  · simpa [List.length_set] using hlen
  · intro w hwmem
    rcases List.mem_or_eq_of_mem_set hwmem with hmem2 | rfl
    · exact hw w hmem2
    · apply lor_two_pow_bound
      · apply hw
        rw [List.getD_eq_getElem _ _ hrlen]
        exact List.getElem_mem _
      · exact Nat.mod_lt _ (by omega)
  · exact Nat.mod_lt _ (by omega)
  · rw [List.nodup_cons]
    refine ⟨fun hm => ?_, hnd⟩
    have h1 := (hbits r).mpr hm
    rw [hrbit] at h1
    exact Bool.false_ne_true h1
  · intro i hi
    rcases List.mem_cons.mp hi with rfl | hi2
    · exact hr
    · exact hmem i hi2
  · intro i
    rw [bitGet_set_or s.allocated r i hrlen]
    constructor
    · intro hb
      by_cases hir : i = r
      · exact hir ▸ List.mem_cons_self r held
      · simp [hir] at hb
        exact List.mem_cons_of_mem r ((hbits i).mp hb)
    · intro hi
      rcases List.mem_cons.mp hi with rfl | hi2
      · simp
      · simp [(hbits i).mpr hi2]
  · simp [List.length_cons, hcnt]

/-- Releasing a held index preserves the trace invariant, with the index
removed from the held indices. -/
lemma inv_free (C : Nat) (held : List Nat) (s : PoolState) (i : Nat)
    (hC2 : C < 4294967296) (hInv : PoolInv C held s) (hi : i ∈ held) :
    PoolInv C (held.erase i) (fx_mem_pool_free i s) := by
  obtain ⟨hlen, hw, hfree, hnd, hmem, hbits, hcnt⟩ := hInv
  have hiC : i < C := hmem i hi
  have hilen : i / 32 < s.allocated.length := by rw [hlen]; omega
  have hlen1 : 0 < held.length := List.length_pos_of_mem hi
  have hheldC : held.length ≤ C := held_length_le C held hnd hmem
  unfold fx_mem_pool_free
  refine ⟨?_, ?_, ?_, ?_, ?_, ?_, ?_⟩
  · simpa [List.length_set] using hlen
  · intro w hwmem
    rcases List.mem_or_eq_of_mem_set hwmem with h2 | rfl
    · exact hw w h2
    · calc s.allocated.getD (i / 32) 0 &&& (4294967295 ^^^ (1 <<< (i % 32))) ≤
          s.allocated.getD (i / 32) 0 := Nat.and_le_left
      _ < 4294967296 := by
          apply hw
          rw [List.getD_eq_getElem _ _ hilen]
          exact List.getElem_mem _
  · dsimp only
    split
    · omega
    · exact hfree
  · exact List.Nodup.erase i hnd
  · intro j hj
    exact hmem j (List.mem_of_mem_erase hj)
  · intro j
    dsimp only
    rw [bitGet_land_clear s.allocated i j hilen, List.Nodup.mem_erase_iff hnd]
    constructor
    · intro hb
      by_cases hij : j = i
      · simp [hij] at hb
      · simp [hij] at hb
        exact ⟨hij, (hbits j).mp hb⟩
    · rintro ⟨hne, hjheld⟩
      simp [hne, (hbits j).mpr hjheld]
  · dsimp only
    rw [hcnt, List.length_erase_of_mem hi]
    omega

/-- The zero-initialized pool satisfies the trace invariant with no held
indices. -/
lemma emptyPool_inv (C : Nat) (hC1 : 1 ≤ C) : PoolInv C [] (emptyPool C) := by
  refine ⟨by simp [emptyPool], ?_, by simpa [emptyPool] using hC1,
    List.nodup_nil, by simp, ?_, by simp [emptyPool]⟩
  · intro w hw
    have := List.eq_of_mem_replicate hw
    omega
  · intro i
    simp [emptyPool, bitGet_replicate_zero]

/-- Running any accepted sequence of claims and releases preserves the trace
invariant, and the held count changes by successful claims minus
releases. -/
lemma runOps_inv (C : Nat) (hC1 : 1 ≤ C) (hC2 : C < 4294967296) :
    ∀ (ops : List PoolOp) (held : List Nat) (s : PoolState) (nC nR : Nat)
      (held2 : List Nat) (s2 : PoolState) (nC2 nR2 : Nat),
      PoolInv C held s →
      runOps C ops held s nC nR = some (held2, s2, nC2, nR2) →
      PoolInv C held2 s2 ∧ held2.length + nC + nR2 = held.length + nC2 + nR
  | [], held, s, nC, nR, held2, s2, nC2, nR2 => by
    intro hInv hrun
    simp only [runOps, Option.some.injEq, Prod.mk.injEq] at hrun
    obtain ⟨rfl, rfl, rfl, rfl⟩ := hrun
    exact ⟨hInv, by omega⟩
  | .claim :: rest, held, s, nC, nR, held2, s2, nC2, nR2 => by
    intro hInv hrun
    rcases fx_alloc_spec C s (inv_wf C held s hInv) hC1 hC2 with
      ⟨hc, heq⟩ | ⟨hn, r, hr, hrbit, heq⟩
    · simp only [runOps, heq, if_pos] at hrun
      have hInv2 : PoolInv C held
          ⟨s.allocated, (s.free_idx + 1) % C, s.n_allocated⟩ := by
        obtain ⟨h1, h2, h3, h4, h5, h6, h7⟩ := hInv
        exact ⟨h1, h2, Nat.mod_lt _ (by omega), h4, h5, h6, h7⟩
      exact runOps_inv C hC1 hC2 rest held _ nC nR held2 s2 nC2 nR2 hInv2 hrun
    · simp only [runOps, heq] at hrun
      rw [if_neg (by omega)] at hrun
      have hInv2 := inv_alloc_succ C held s r hInv hr hrbit
      obtain ⟨hI, hEq⟩ :=
        runOps_inv C hC1 hC2 rest (r :: held) _ (nC + 1) nR held2 s2 nC2 nR2 hInv2 hrun
      refine ⟨hI, ?_⟩
      simp only [List.length_cons] at hEq
      omega
  | .release i :: rest, held, s, nC, nR, held2, s2, nC2, nR2 => by
    intro hInv hrun
    simp only [runOps] at hrun
    split at hrun
    · rename_i hmem2
      have hInv2 := inv_free C held s i hC2 hInv hmem2
      obtain ⟨hI, hEq⟩ :=
        runOps_inv C hC1 hC2 rest (held.erase i) _ nC (nR + 1) held2 s2 nC2 nR2 hInv2 hrun
      refine ⟨hI, ?_⟩
      rw [List.length_erase_of_mem hmem2] at hEq
      have h1 : 0 < held.length := List.length_pos_of_mem hmem2
      omega
    · exact absurd hrun (by simp)

/-- C1: after any accepted sequence of sequential claims and releases from
the empty pool (each release matching a distinct prior unreleased claim),
the next claim never returns an index that is still held: a successful
claim returns only an index whose bitmap bit was clear, and it has set that
bit in the returned state. -/
theorem c1_no_double_alloc (C : Nat) (ops : List PoolOp) (held : List Nat)
    (s : PoolState) (nC nR r : Nat) (s2 : PoolState)
    (hC1 : 1 ≤ C) (hC2 : C < 4294967296)
    (hrun : runOps C ops [] (emptyPool C) 0 0 = some (held, s, nC, nR))
    (halloc : fx_mem_pool_alloc C s = some (r, s2)) (hne : r ≠ C) :
    r ∉ held ∧ bitGet s.allocated r = false ∧ bitGet s2.allocated r = true := by
  obtain ⟨hInv, -⟩ := runOps_inv C hC1 hC2 ops [] (emptyPool C) 0 0 held s nC nR
    (emptyPool_inv C hC1) hrun
  rcases fx_alloc_spec C s (inv_wf C held s hInv) hC1 hC2 with
    ⟨hc, heq⟩ | ⟨hn, r0, hr0, hbit0, heq⟩
  · rw [halloc] at heq
    simp only [Option.some.injEq, Prod.mk.injEq] at heq
    exact absurd heq.1 hne
  · rw [halloc] at heq
    simp only [Option.some.injEq, Prod.mk.injEq] at heq
    obtain ⟨rfl, rfl⟩ := heq
    obtain ⟨hlen, hw, hfree, hnd, hmemH, hbits, hcnt⟩ := hInv
    refine ⟨fun hmem => ?_, hbit0, ?_⟩
    · have h1 := (hbits r).mpr hmem
      rw [hbit0] at h1
      exact Bool.false_ne_true h1
    · rw [bitGet_set_or s.allocated r r (by rw [hlen]; omega)]
      simp

/-- Witness for C1 at a concrete input. -/
theorem c1_witness :
    0 ∉ ([] : List Nat) ∧ bitGet (emptyPool 1).allocated 0 = false ∧
      bitGet (⟨[1], 0, 1⟩ : PoolState).allocated 0 = true :=
  c1_no_double_alloc 1 [] [] (emptyPool 1) 0 0 0 ⟨[1], 0, 1⟩ (by decide) (by decide)
    rfl rfl (by decide)

/-- C7: after any accepted sequence from the empty pool with `N` successful
claims and `M` releases (each release matching a distinct prior unreleased
claim), `M <= N`, the counter equals `N - M`, and it equals the number of
set bits in the bitmap. -/
theorem c7_accounting (C : Nat) (ops : List PoolOp) (held : List Nat)
    (s : PoolState) (N M : Nat) (hC1 : 1 ≤ C) (hC2 : C < 4294967296)
    (hrun : runOps C ops [] (emptyPool C) 0 0 = some (held, s, N, M)) :
    M ≤ N ∧ s.n_allocated = N - M ∧ s.n_allocated = bitmapCount s.allocated := by
  obtain ⟨hInv, hEq⟩ := runOps_inv C hC1 hC2 ops [] (emptyPool C) 0 0 held s N M
    (emptyPool_inv C hC1) hrun
  have hbc := bitmapCount_eq C held s hInv
  obtain ⟨-, -, -, -, -, -, hcnt⟩ := hInv
  simp only [List.length_nil] at hEq
  refine ⟨by omega, by omega, by rw [hcnt, hbc]⟩

/-- Witness for C7 at a concrete input: one claim followed by its release. -/
theorem c7_witness :
    1 ≤ 1 ∧ (⟨[0], 0, 0⟩ : PoolState).n_allocated = 1 - 1 ∧
      (⟨[0], 0, 0⟩ : PoolState).n_allocated =
        bitmapCount (⟨[0], 0, 0⟩ : PoolState).allocated :=
  c7_accounting 1 [PoolOp.claim, PoolOp.release 0] [] ⟨[0], 0, 0⟩ 1 1
    (by decide) (by decide) rfl
